import Mathlib

set_option linter.unusedSectionVars false
set_option linter.unusedVariables false
set_option linter.unnecessarySeqFocus false

/-!
Verification of the planning-graph core (`my_planning_graph.py`).

The Python module builds a GraphPlan-style planning graph: alternating
literal (S) levels and action (A) levels, mutual-exclusion (mutex)
relations between sibling nodes, a fixed-point leveling loop, and the
level-sum heuristic.  This file gives a shallow embedding of that code:

* literals over an abstract fluent vocabulary `σ` (the Python `expr`
  objects), with `PgNode_s` carrying a symbol and a polarity flag;
* actions with the four literal collections of the Python `Action`
  class, plus a tagged identity standing for the Python name/args pair;
* Python sets are embedded as lists used with set semantics
  (membership, subset, and the `eqset` set-equality test); the list
  order stands for the iteration order of the Python set;
* mutable node attributes are embedded by explicit state passing:
  the `parents` attribute of an admitted action node is a field computed
  by `add_action_level`, the `children` attribute is the association map
  threaded through the same fold, and the `mutex` attribute of every
  node is the association map `MutexMap` threaded through the update
  loops;
* the unbounded `while not leveled` loop of `create_graph` is embedded
  with explicit fuel (`create_graph_loop`); termination is then the
  statement that some fuel amount suffices.
-/

namespace AirCargo

variable {σ : Type} [DecidableEq σ]

/-- Literal (state) node of the planning graph: the Python class
`PgNode_s`, whose equality and hash compare only `symbol` and `is_pos`. -/
structure PgNode_s (σ : Type) where
  symbol : σ
  is_pos : Bool
deriving DecidableEq, Repr

/-- Identity of a ground action.  The Python code identifies a domain
action by its `name`/`args` pair (abstracted here by a numeric id) and
builds the synthetic persistence actions with names `Noop_pos(f)` /
`Noop_neg(f)`, one pair per fluent `f`. -/
inductive AName (σ : Type) where
  | domain : Nat → AName σ
  | noop_pos : σ → AName σ
  | noop_neg : σ → AName σ
deriving DecidableEq, Repr

/-- The Python `Action` data: positive/negative preconditions and
add/delete effects, plus identity. -/
structure Action (σ : Type) where
  name : AName σ
  precond_pos : List σ
  precond_neg : List σ
  effect_add : List σ
  effect_rem : List σ
deriving DecidableEq, Repr

/-- `PgNode_a.precond_s_nodes`: precondition literals as S-nodes. -/
def prenodes (a : Action σ) : List (PgNode_s σ) :=
  a.precond_pos.map (fun p => ⟨p, true⟩) ++ a.precond_neg.map (fun p => ⟨p, false⟩)

/-- `PgNode_a.effect_s_nodes`: effect literals as S-nodes. -/
def effnodes (a : Action σ) : List (PgNode_s σ) :=
  a.effect_add.map (fun e => ⟨e, true⟩) ++ a.effect_rem.map (fun e => ⟨e, false⟩)

/-- Boolean set-equality test for lists used as sets (embeds Python `==`
on sets, e.g. the `prenodes == effnodes` and the leveling comparison). -/
def eqset (l1 l2 : List (PgNode_s σ)) : Bool :=
  l1.all (fun x => decide (x ∈ l2)) && l2.all (fun x => decide (x ∈ l1))

/-- `PgNode_a.is_persistent`: the precondition node set equals the
effect node set. -/
def is_persistent (a : Action σ) : Bool :=
  eqset (prenodes a) (effnodes a)

/-- Action node as admitted to an A level: the underlying action
together with the `parents` attribute it ends up with (the Python
object's other attributes are threaded separately). -/
structure PgNode_a (σ : Type) where
  action : Action σ
  parents : List (PgNode_s σ)
deriving DecidableEq, Repr

/-- `PlanningGraph.noop_actions`: one positive and one negative
persistence action per fluent of the vocabulary list. -/
def noop_actions (literal_list : List σ) : List (Action σ) :=
  literal_list.flatMap (fun fluent =>
    [⟨AName.noop_pos fluent, [fluent], [], [fluent], []⟩,
     ⟨AName.noop_neg fluent, [], [fluent], [], [fluent]⟩])

/-- The association map carrying the `children` attribute of the
literal nodes of the current level (node value ↦ accumulated children). -/
abbrev ChildMap (σ : Type) := List (PgNode_s σ × List (PgNode_a σ))

/-- `literal.children.add(action_node)`: append `an` to the children of
key `l`, creating the entry when absent. -/
def addChild (m : ChildMap σ) (l : PgNode_s σ) (an : PgNode_a σ) : ChildMap σ :=
  match m with
  | [] => [(l, [an])]
  | (k, cs) :: rest =>
    if k = l then (k, cs ++ [an]) :: rest else (k, cs) :: addChild rest l an

/-- Read a literal node's accumulated `children` set. -/
def childLookup (m : ChildMap σ) (l : PgNode_s σ) : List (PgNode_a σ) :=
  match m with
  | [] => []
  | (k, cs) :: rest => if k = l then cs else childLookup rest l

/-- One iteration of the `for action in self.all_actions` loop of
`PlanningGraph.add_action_level`: admit the action node when its
precondition nodes are a subset of the current literal level, and then
connect it to every literal node of that level (parents of the node,
children of every literal). -/
def add_action_level_step (lvl : List (PgNode_s σ)) (st : List (PgNode_a σ) × ChildMap σ)
    (a : Action σ) : List (PgNode_a σ) × ChildMap σ :=
  if (prenodes a).all (fun p => decide (p ∈ lvl)) then
    let an : PgNode_a σ := ⟨a, lvl.foldl (fun ps l => ps ++ [l]) []⟩
    (st.1 ++ [an], lvl.foldl (fun m l => addChild m l an) st.2)
  else st

/-- `PlanningGraph.add_action_level`: the admitted A-level list together
with the `children` sets the loop installs on the level's literals. -/
def add_action_level (actions : List (Action σ)) (lvl : List (PgNode_s σ)) :
    List (PgNode_a σ) × ChildMap σ :=
  actions.foldl (add_action_level_step lvl) ([], [])

/-- `PlanningGraph.add_literal_level`: collect the effect nodes of every
action node of the previous A level; `set(literal_level)` collapses
duplicates. -/
def add_literal_level (anodes : List (PgNode_a σ)) : List (PgNode_s σ) :=
  (anodes.foldl (fun acc an => acc ++ effnodes an.action) []).dedup

/-- One round of the `while not leveled` loop restricted to the literal
levels: the literal level following `lvl`. -/
def nextLiteralLevel (actions : List (Action σ)) (lvl : List (PgNode_s σ)) :
    List (PgNode_s σ) :=
  add_literal_level (add_action_level actions lvl).1

/-- The trace of the leveling loop: the literal level reached after `k`
rounds starting from `lvl`. -/
def iterLevel (actions : List (Action σ)) (lvl : List (PgNode_s σ)) : Nat → List (PgNode_s σ)
  | 0 => lvl
  | k + 1 => nextLiteralLevel actions (iterLevel actions lvl k)

/-- The loop of `PlanningGraph.create_graph` with explicit fuel: build
successive literal levels until two consecutive ones are equal as sets;
`none` means the fuel ran out before the graph leveled off. -/
def create_graph_loop (actions : List (Action σ)) (lvl : List (PgNode_s σ)) :
    Nat → Option (List (List (PgNode_s σ)))
  | 0 => none
  | fuel + 1 =>
    let nxt := nextLiteralLevel actions lvl
    if eqset nxt lvl then some [lvl, nxt]
    else
      match create_graph_loop actions nxt fuel with
      | none => none
      | some ls => some (lvl :: ls)

/-- Level 0 of the graph, decoded from the positive and negative fluent
lists of the starting state. -/
def initial_level (posl negl : List σ) : List (PgNode_s σ) :=
  posl.map (fun l => ⟨l, true⟩) ++ negl.map (fun l => ⟨l, false⟩)

/-- `PlanningGraph.create_graph`: fails when the graph already has
levels, otherwise builds the literal levels from the initial state.
(The `out of fuel` branch is the embedding artifact for a build that
never levels off.) -/
def create_graph (s_levels : List (List (PgNode_s σ))) (a_levels : List (List (PgNode_a σ)))
    (actions : List (Action σ)) (posl negl : List σ) (fuel : Nat) :
    Except String (List (List (PgNode_s σ))) :=
  if s_levels.length != 0 || a_levels.length != 0 then
    Except.error "Planning Graph already created; construct a new planning graph for each new state in the planning sequence"
  else
    match create_graph_loop actions (initial_level posl negl) fuel with
    | some ls => Except.ok ls
    | none => Except.error "out of fuel"

/-- A planning-graph node of either kind, as passed to `mutexify`
(the constructor plays the role of the Python runtime class). -/
inductive PgNode (σ : Type) where
  | lit : PgNode_s σ → PgNode σ
  | act : PgNode_a σ → PgNode σ
deriving DecidableEq, Repr

/-- `type(node1) == type(node2)` for the two node classes. -/
def sameNodeType : PgNode σ → PgNode σ → Bool
  | PgNode.lit _, PgNode.lit _ => true
  | PgNode.act _, PgNode.act _ => true
  | _, _ => false

/-- The association map carrying the `mutex` attribute of every node
(node value ↦ its accumulated mutex set). -/
abbrev MutexMap (σ : Type) := List (PgNode σ × List (PgNode σ))

/-- `a.mutex.add(b)`: set-insert `b` into the mutex set of `a`. -/
def mutexAdd (m : MutexMap σ) (a b : PgNode σ) : MutexMap σ :=
  match m with
  | [] => [(a, [b])]
  | (k, s) :: rest =>
    if k = a then (k, if b ∈ s then s else s ++ [b]) :: rest
    else (k, s) :: mutexAdd rest a b

/-- Read a node's accumulated `mutex` set. -/
def mutexLookup (m : MutexMap σ) (a : PgNode σ) : List (PgNode σ) :=
  match m with
  | [] => []
  | (k, s) :: rest => if k = a then s else mutexLookup rest a

/-- The two mutating lines of `mutexify`, run after its type check
passed: each node is added to the other's mutex set. -/
def mutexify_pair (m : MutexMap σ) (a b : PgNode σ) : MutexMap σ :=
  mutexAdd (mutexAdd m a b) b a

/-- The module-level `mutexify` function: raises `TypeError` on nodes of
different classes, otherwise adds the nodes to each other's mutex sets. -/
def mutexify (m : MutexMap σ) (node1 node2 : PgNode σ) :
    Except String (MutexMap σ) :=
  if sameNodeType node1 node2 then
    Except.ok (mutexify_pair m node1 node2)
  else
    Except.error "Attempted to mutex two nodes of different types"

/-- `PlanningGraph.serialize_actions`. -/
def serialize_actions (serial : Bool) (node_a1 node_a2 : PgNode_a σ) : Bool :=
  if !serial then false
  else if is_persistent node_a1.action || is_persistent node_a2.action then false
  else true

/-- `PlanningGraph.inconsistent_effects_mutex`: some add effect of one
action is a delete effect of the other (either direction). -/
def inconsistent_effects_mutex (node_a1 node_a2 : PgNode_a σ) : Bool :=
  node_a1.action.effect_add.any (fun e => decide (e ∈ node_a2.action.effect_rem)) ||
  node_a2.action.effect_add.any (fun e => decide (e ∈ node_a1.action.effect_rem))

/-- `PlanningGraph.interference_mutex`: some delete effect of one action
is a positive precondition of the other (either direction). -/
def interference_mutex (node_a1 node_a2 : PgNode_a σ) : Bool :=
  node_a1.action.effect_rem.any (fun r => decide (r ∈ node_a2.action.precond_pos)) ||
  node_a2.action.effect_rem.any (fun r => decide (r ∈ node_a1.action.precond_pos))

/-- `PlanningGraph.competing_needs_mutex`: some parent literal of one
node is mutex with some parent literal of the other.  The relation
`smutex` stands for membership in the literal nodes' mutex sets
(`parent_a1.is_mutex(parent_a2)`). -/
def competing_needs_mutex (smutex : PgNode_s σ → PgNode_s σ → Bool)
    (node_a1 node_a2 : PgNode_a σ) : Bool :=
  node_a1.parents.any (fun p1 => node_a2.parents.any (fun p2 => smutex p1 p2))

/-- `PlanningGraph.negation_mutex`: same symbol, opposite polarity. -/
def negation_mutex (node_s1 node_s2 : PgNode_s σ) : Bool :=
  decide (node_s1.is_pos ≠ node_s2.is_pos) && decide (node_s1.symbol = node_s2.symbol)

/-- `PlanningGraph.inconsistent_support_mutex`: count the mutex pairs
over the cross product of the two parent sets (action nodes of the
previous level) and compare the counter with the size of the first
parent set.  `amutex` stands for `parent_a1.is_mutex(parent_a2)`. -/
def inconsistent_support_mutex (amutex : PgNode_a σ → PgNode_a σ → Bool)
    (parents1 parents2 : List (PgNode_a σ)) : Bool :=
  (parents1.foldl
    (fun c p1 => parents2.foldl (fun c2 p2 => if amutex p1 p2 then c2 + 1 else c2) c) 0)
    == parents1.length

/-- The unordered sibling pairs visited by the
`for i, n1 in enumerate(nodelist[:-1]): for n2 in nodelist[i + 1:]`
loops of `update_a_mutex` / `update_s_mutex`. -/
def pairsOf {α : Type} : List α → List (α × α)
  | [] => []
  | x :: xs => xs.map (fun y => (x, y)) ++ pairsOf xs

/-- The disjunction of the four action mutex tests, as evaluated by
`update_a_mutex` on one sibling pair. -/
def a_mutex_test (serial : Bool) (smutex : PgNode_s σ → PgNode_s σ → Bool)
    (n1 n2 : PgNode_a σ) : Bool :=
  serialize_actions serial n1 n2 || inconsistent_effects_mutex n1 n2 ||
  interference_mutex n1 n2 || competing_needs_mutex smutex n1 n2

/-- `PlanningGraph.update_a_mutex`: visit every sibling pair of the
A level and `mutexify` the ones some test marks.  Both nodes are action
nodes, so the `mutexify` type check always passes and the call reduces
to `mutexify_pair`. -/
def update_a_mutex (serial : Bool) (smutex : PgNode_s σ → PgNode_s σ → Bool)
    (nodelist : List (PgNode_a σ)) (m0 : MutexMap σ) : MutexMap σ :=
  (pairsOf nodelist).foldl
    (fun m p =>
      if a_mutex_test serial smutex p.1 p.2 then
        mutexify_pair m (PgNode.act p.1) (PgNode.act p.2)
      else m) m0

/-- `PlanningGraph.update_s_mutex`: visit every sibling pair of the
S level and `mutexify` the ones marked by negation or inconsistent
support.  `sparents` reads the `parents` attribute of a literal node and
`amutex` the mutex sets of the previous A level. -/
def update_s_mutex (sparents : PgNode_s σ → List (PgNode_a σ))
    (amutex : PgNode_a σ → PgNode_a σ → Bool)
    (nodelist : List (PgNode_s σ)) (m0 : MutexMap σ) : MutexMap σ :=
  (pairsOf nodelist).foldl
    (fun m p =>
      if negation_mutex p.1 p.2 ||
         inconsistent_support_mutex amutex (sparents p.1) (sparents p.2) then
        mutexify_pair m (PgNode.lit p.1) (PgNode.lit p.2)
      else m) m0

/-- The inner `for node ... for goal ...` loops of `h_levelsum` on one
literal level: the first goal (node-major order, then goal order) whose
symbol some node matches and that is not yet in `goal_checked`. -/
def findGoalAtLevel (goals checked : List σ) : List (PgNode_s σ) → Option σ
  | [] => none
  | n :: rest =>
    match goals.find? (fun g => decide (n.symbol = g) && !(decide (g ∈ checked))) with
    | some g => some g
    | none => findGoalAtLevel goals checked rest

/-- The level loop of `h_levelsum`: when a level yields a goal, that
goal joins `goal_checked`, the level index joins the running sum, and
the scan moves to the next level (`goal_check` breaks out of the node
loop). -/
def h_levelsum_aux (goals : List σ) :
    List (List (PgNode_s σ)) → List σ → Nat → Int → Int
  | [], _, _, acc => acc
  | lvl :: rest, checked, idx, acc =>
    match findGoalAtLevel goals checked lvl with
    | some g => h_levelsum_aux goals rest (checked ++ [g]) (idx + 1) (acc + (idx : Int))
    | none => h_levelsum_aux goals rest checked (idx + 1) acc

/-- `PlanningGraph.h_levelsum` on the finished literal levels and the
problem's goal list. -/
def h_levelsum (s_levels : List (List (PgNode_s σ))) (goals : List σ) : Int :=
  h_levelsum_aux goals s_levels [] 0 0

/-- Index of the first literal level containing a node whose symbol
equals `g` (polarity-blind, as in the heuristic's scan).  Written from
the specification's words, to be compared with `h_levelsum`. -/
def firstLevelWithSymbol (g : σ) : List (List (PgNode_s σ)) → Option Nat
  | [] => none
  | lvl :: rest =>
    if lvl.any (fun n => decide (n.symbol = g)) then some 0
    else (firstLevelWithSymbol g rest).map (· + 1)

/-- The level sum the specification describes: the sum, over the
distinct goals, of the first level index at which the goal's symbol
appears (0 for a goal appearing nowhere).  Written from the
specification's words, to be compared with `h_levelsum`. -/
def claimed_levelsum (s_levels : List (List (PgNode_s σ))) (goals : List σ) : Int :=
  (goals.dedup.map (fun g => (((firstLevelWithSymbol g s_levels).getD 0 : Nat) : Int))).sum

/-- The cross product of two lists, used to state the inconsistent
support counting property. -/
def crossPairs {α β : Type} (l1 : List α) (l2 : List β) : List (α × β) :=
  l1.flatMap (fun a => l2.map (fun b => (a, b)))

/-- Symmetry of the accumulated mutex relation. -/
def SymmMap (m : MutexMap σ) : Prop :=
  ∀ a b, b ∈ mutexLookup m a → a ∈ mutexLookup m b

/-! ### Helper lemmas -/

theorem foldl_count_inner (amutex : PgNode_a σ → PgNode_a σ → Bool) (p1 : PgNode_a σ)
    (l : List (PgNode_a σ)) :
    ∀ c : Nat, l.foldl (fun c2 p2 => if amutex p1 p2 then c2 + 1 else c2) c
      = c + l.countP (fun p2 => amutex p1 p2) := by
  induction l with
  | nil => intro c; simp
  | cons a t ih =>
    intro c
    simp only [List.foldl_cons, List.countP_cons, ih]
    by_cases h : amutex p1 a = true <;> simp [h] <;> omega

theorem foldl_add_sum (f : PgNode_a σ → Nat) (l : List (PgNode_a σ)) :
    ∀ c : Nat, l.foldl (fun c p1 => c + f p1) c = c + (l.map f).sum := by
  induction l with
  | nil => intro c; simp
  | cons a t ih => intro c; simp [ih]; omega

theorem countP_crossPairs {α β : Type} (q : α × β → Bool) (l1 : List α) (l2 : List β) :
    (crossPairs l1 l2).countP q = (l1.map (fun a => l2.countP (fun b => q (a, b)))).sum := by
  induction l1 with
  | nil => simp [crossPairs]
  | cons a t ih =>
    simp only [crossPairs, List.flatMap_cons, List.countP_append, List.map_cons,
      List.sum_cons, List.countP_map] at *
    rw [ih]
    rfl

/-! ### Claim theorems: error handling (C8, C9) -/

/-- Claim C8: calling `mutexify` on two nodes of different types (a
literal node and an action node) raises a type error; no mutex set is
modified (no updated state is produced) and the call is never silently
coerced into a success. -/
theorem mutexify_type_error (m : MutexMap σ) (node1 node2 : PgNode σ)
    (h : sameNodeType node1 node2 = false) :
    mutexify m node1 node2 = Except.error "Attempted to mutex two nodes of different types" ∧
    ∀ m2, mutexify m node1 node2 ≠ Except.ok m2 := by
  constructor
  · simp [mutexify, h]
  · intro m2
    simp [mutexify, h]

/-- Witness for C8 at a concrete literal/action node pair. -/
theorem mutexify_type_error_witness :
    mutexify ([] : MutexMap Nat) (PgNode.lit ⟨0, true⟩)
      (PgNode.act ⟨⟨AName.domain 0, [], [], [], []⟩, []⟩)
      = Except.error "Attempted to mutex two nodes of different types" :=
  (mutexify_type_error [] (PgNode.lit ⟨0, true⟩)
    (PgNode.act ⟨⟨AName.domain 0, [], [], [], []⟩, []⟩) rfl).1

/-- Claim C9: invoking `create_graph` on a graph whose literal-level or
action-level list is non-empty signals the re-construction error
immediately; no level is built. -/
theorem create_graph_rebuild_error (s_levels : List (List (PgNode_s σ)))
    (a_levels : List (List (PgNode_a σ))) (actions : List (Action σ))
    (posl negl : List σ) (fuel : Nat)
    (h : s_levels ≠ [] ∨ a_levels ≠ []) :
    create_graph s_levels a_levels actions posl negl fuel =
      Except.error "Planning Graph already created; construct a new planning graph for each new state in the planning sequence" := by
  have hcond : (s_levels.length != 0 || a_levels.length != 0) = true := by
    rcases h with h | h
    · have h2 : s_levels.length ≠ 0 := by
        simpa [List.length_eq_zero] using h
      simp [h2]
    · have h2 : a_levels.length ≠ 0 := by
        simpa [List.length_eq_zero] using h
      simp [h2]
  simp [create_graph, hcond]

/-- Witness for C9: a graph with one existing literal level. -/
theorem create_graph_rebuild_error_witness :
    create_graph ([[⟨0, true⟩]] : List (List (PgNode_s Nat))) [] (noop_actions [0]) [0] [] 3 =
      Except.error "Planning Graph already created; construct a new planning graph for each new state in the planning sequence" :=
  create_graph_rebuild_error [[⟨0, true⟩]] [] (noop_actions [0]) [0] [] 3
    (Or.inl (by decide))

theorem foldl_push {α : Type} (l : List α) :
    ∀ acc : List α, l.foldl (fun ps x => ps ++ [x]) acc = acc ++ l := by
  induction l with
  | nil => intro acc; simp
  | cons a t ih => intro acc; simp [ih]

theorem childLookup_addChild (m : ChildMap σ) (k : PgNode_s σ) (an : PgNode_a σ)
    (l : PgNode_s σ) :
    childLookup (addChild m k an) l =
      if k = l then childLookup m l ++ [an] else childLookup m l := by
  induction m with
  | nil =>
    by_cases h : k = l <;> simp [addChild, childLookup, h]
  | cons p rest ih =>
    obtain ⟨k2, cs⟩ := p
    by_cases h1 : k2 = k
    · subst h1
      by_cases h2 : k2 = l <;> simp [addChild, childLookup, h2, ih]
    · by_cases h2 : k2 = l
      · subst h2
        have h3 : ¬ k = k2 := fun he => h1 he.symm
        simp [addChild, childLookup, h1, h3, ih]
      · simp [addChild, childLookup, h1, h2, ih]

theorem mem_childLookup_foldl (lvl : List (PgNode_s σ)) (an : PgNode_a σ) :
    ∀ (m0 : ChildMap σ) (l : PgNode_s σ) (x : PgNode_a σ),
      x ∈ childLookup (lvl.foldl (fun m l2 => addChild m l2 an) m0) l ↔
        x ∈ childLookup m0 l ∨ (x = an ∧ l ∈ lvl) := by
  induction lvl with
  | nil => intro m0 l x; simp
  | cons h t ih =>
    intro m0 l x
    rw [List.foldl_cons, ih]
    rw [childLookup_addChild]
    by_cases hh : h = l
    · subst hh
      rw [if_pos rfl]
      constructor
      · rintro (hm | ⟨hx, hl⟩)
        · rcases List.mem_append.mp hm with hm | hm
          · exact Or.inl hm
          · exact Or.inr ⟨List.mem_singleton.mp hm, List.mem_cons_self h t⟩
        · exact Or.inr ⟨hx, List.mem_cons_of_mem h hl⟩
      · rintro (hm | ⟨hx, hl⟩)
        · exact Or.inl (List.mem_append.mpr (Or.inl hm))
        · exact Or.inl (List.mem_append.mpr (Or.inr (List.mem_singleton.mpr hx)))
    · rw [if_neg hh]
      constructor
      · rintro (hm | ⟨hx, hl⟩)
        · exact Or.inl hm
        · exact Or.inr ⟨hx, List.mem_cons_of_mem h hl⟩
      · rintro (hm | ⟨hx, hl⟩)
        · exact Or.inl hm
        · rcases List.mem_cons.mp hl with he | hl2
          · exact absurd he.symm hh
          · exact Or.inr ⟨hx, hl2⟩

/-- Full characterization of the `add_action_level` fold: what ends up
in the admitted action list and in the children sets of the level's
literal nodes. -/
theorem add_action_level_go (lvl : List (PgNode_s σ)) :
    ∀ (actions : List (Action σ)) (st : List (PgNode_a σ) × ChildMap σ),
      (∀ an, an ∈ (actions.foldl (add_action_level_step lvl) st).1 ↔
        an ∈ st.1 ∨ ∃ a ∈ actions, (∀ p ∈ prenodes a, p ∈ lvl) ∧ an = ⟨a, lvl⟩) ∧
      (∀ (l : PgNode_s σ) (x : PgNode_a σ),
        x ∈ childLookup (actions.foldl (add_action_level_step lvl) st).2 l ↔
          x ∈ childLookup st.2 l ∨
            (l ∈ lvl ∧ ∃ a ∈ actions, (∀ p ∈ prenodes a, p ∈ lvl) ∧ x = ⟨a, lvl⟩)) := by
  intro actions
  induction actions with
  | nil => intro st; constructor <;> intros <;> simp
  | cons a rest ih =>
    intro st
    have hsub : ((prenodes a).all (fun p => decide (p ∈ lvl)) = true) ↔
        (∀ p ∈ prenodes a, p ∈ lvl) := by
      simp [List.all_eq_true]
    by_cases hadm : (prenodes a).all (fun p => decide (p ∈ lvl)) = true
    · have hstep : add_action_level_step lvl st a =
          (st.1 ++ [⟨a, lvl⟩], lvl.foldl (fun m l => addChild m l ⟨a, lvl⟩) st.2) := by
        simp [add_action_level_step, hadm, foldl_push]
      constructor
      · intro an
        rw [List.foldl_cons, hstep, (ih _).1 an]
        constructor
        · rintro (h | ⟨a2, ha2, hp, he⟩)
          · rcases List.mem_append.mp h with h | h
            · exact Or.inl h
            · exact Or.inr ⟨a, List.mem_cons_self a rest, hsub.mp hadm,
                List.mem_singleton.mp h⟩
          · exact Or.inr ⟨a2, List.mem_cons_of_mem a ha2, hp, he⟩
        · rintro (h | ⟨a2, ha2, hp, he⟩)
          · exact Or.inl (List.mem_append.mpr (Or.inl h))
          · rcases List.mem_cons.mp ha2 with he2 | ha2
            · subst he2
              exact Or.inl (List.mem_append.mpr (Or.inr (List.mem_singleton.mpr he)))
            · exact Or.inr ⟨a2, ha2, hp, he⟩
      · intro l x
        rw [List.foldl_cons, hstep, (ih _).2 l x]
        rw [mem_childLookup_foldl]
        constructor
        · rintro ((h | ⟨hx, hl⟩) | ⟨hl, a2, ha2, hp, he⟩)
          · exact Or.inl h
          · exact Or.inr ⟨hl, a, List.mem_cons_self a rest, hsub.mp hadm, hx⟩
          · exact Or.inr ⟨hl, a2, List.mem_cons_of_mem a ha2, hp, he⟩
        · rintro (h | ⟨hl, a2, ha2, hp, he⟩)
          · exact Or.inl (Or.inl h)
          · rcases List.mem_cons.mp ha2 with he2 | ha2
            · subst he2; exact Or.inl (Or.inr ⟨he, hl⟩)
            · exact Or.inr ⟨hl, a2, ha2, hp, he⟩
    · have hstep : add_action_level_step lvl st a = st := by
        simp [add_action_level_step, hadm]
      have hnot : ¬ (∀ p ∈ prenodes a, p ∈ lvl) := fun hp => hadm (hsub.mpr hp)
      constructor
      · intro an
        rw [List.foldl_cons, hstep, (ih _).1 an]
        constructor
        · rintro (h | ⟨a2, ha2, hp, he⟩)
          · exact Or.inl h
          · exact Or.inr ⟨a2, List.mem_cons_of_mem a ha2, hp, he⟩
        · rintro (h | ⟨a2, ha2, hp, he⟩)
          · exact Or.inl h
          · rcases List.mem_cons.mp ha2 with he2 | ha2
            · subst he2; exact absurd hp hnot
            · exact Or.inr ⟨a2, ha2, hp, he⟩
      · intro l x
        rw [List.foldl_cons, hstep, (ih _).2 l x]
        constructor
        · rintro (h | ⟨hl, a2, ha2, hp, he⟩)
          · exact Or.inl h
          · exact Or.inr ⟨hl, a2, List.mem_cons_of_mem a ha2, hp, he⟩
        · rintro (h | ⟨hl, a2, ha2, hp, he⟩)
          · exact Or.inl h
          · rcases List.mem_cons.mp ha2 with he2 | ha2
            · subst he2; exact absurd hp hnot
            · exact Or.inr ⟨hl, a2, ha2, hp, he⟩

theorem mem_add_action_level (actions : List (Action σ)) (lvl : List (PgNode_s σ))
    (an : PgNode_a σ) :
    an ∈ (add_action_level actions lvl).1 ↔
      ∃ a ∈ actions, (∀ p ∈ prenodes a, p ∈ lvl) ∧ an = ⟨a, lvl⟩ := by
  have h := (add_action_level_go lvl actions ([], [])).1 an
  simpa [add_action_level] using h

theorem mem_add_action_level_children (actions : List (Action σ)) (lvl : List (PgNode_s σ))
    (l : PgNode_s σ) (x : PgNode_a σ) :
    x ∈ childLookup (add_action_level actions lvl).2 l ↔
      l ∈ lvl ∧ ∃ a ∈ actions, (∀ p ∈ prenodes a, p ∈ lvl) ∧ x = ⟨a, lvl⟩ := by
  have h := (add_action_level_go lvl actions ([], [])).2 l x
  simpa [add_action_level, childLookup] using h

/-! ### Claim theorem: action-level admission and connection (C3) -/

/-- Claim C3: during `add_action_level`, a candidate action's node is
admitted exactly when its precondition-node set is a subset of the
current literal level, and every admitted node is connected
bidirectionally (parents of the node / children of the literal) to every
literal node of the level, not only to its precondition literals. -/
theorem add_action_level_spec (actions : List (Action σ)) (lvl : List (PgNode_s σ)) :
    (∀ a ∈ actions, ((⟨a, lvl⟩ : PgNode_a σ) ∈ (add_action_level actions lvl).1 ↔
        ∀ p ∈ prenodes a, p ∈ lvl)) ∧
    (∀ an ∈ (add_action_level actions lvl).1, ∀ l ∈ lvl,
        l ∈ an.parents ∧ an ∈ childLookup (add_action_level actions lvl).2 l) := by
  constructor
  · intro a ha
    rw [mem_add_action_level]
    constructor
    · rintro ⟨a2, ha2, hp, he⟩
      injection he with h1 h2
      subst h1
      exact hp
    · intro hp
      exact ⟨a, ha, hp, rfl⟩
  · intro an han l hl
    rcases (mem_add_action_level actions lvl an).mp han with ⟨a2, ha2, hp, he⟩
    subst he
    refine ⟨hl, ?_⟩
    rw [mem_add_action_level_children]
    exact ⟨hl, a2, ha2, hp, rfl⟩

/-- Witness for C3: the positive no-op over a one-fluent vocabulary is
admitted and connected to the level's literal in both directions. -/
theorem add_action_level_spec_witness :
    ((⟨⟨AName.noop_pos 0, [0], [], [0], []⟩, [⟨0, true⟩]⟩ : PgNode_a Nat) ∈
        (add_action_level (noop_actions [0]) [⟨0, true⟩]).1) ∧
    ((⟨0, true⟩ : PgNode_s Nat) ∈
        (⟨⟨AName.noop_pos 0, [0], [], [0], []⟩, [⟨0, true⟩]⟩ : PgNode_a Nat).parents) ∧
    ((⟨⟨AName.noop_pos 0, [0], [], [0], []⟩, [⟨0, true⟩]⟩ : PgNode_a Nat) ∈
        childLookup (add_action_level (noop_actions [0]) [⟨0, true⟩]).2 ⟨0, true⟩) := by
  have h1 := (add_action_level_spec (noop_actions [0]) ([⟨0, true⟩] : List (PgNode_s Nat))).1
    ⟨AName.noop_pos 0, [0], [], [0], []⟩ (by decide)
  have hmem := h1.mpr (by decide)
  have h2 := (add_action_level_spec (noop_actions [0]) ([⟨0, true⟩] : List (PgNode_s Nat))).2
    _ hmem ⟨0, true⟩ (by decide)
  exact ⟨hmem, h2.1, h2.2⟩

/-! ### Mutex map lemmas (C4, C10) -/

theorem pairsOf_cases {α : Type} (l : List α) (a b : α) (ha : a ∈ l) (hb : b ∈ l)
    (hne : a ≠ b) : (a, b) ∈ pairsOf l ∨ (b, a) ∈ pairsOf l := by
  induction l with
  | nil => cases ha
  | cons x t ih =>
    rcases List.mem_cons.mp ha with he | ha2
    · subst he
      have hb2 : b ∈ t := by
        rcases List.mem_cons.mp hb with he2 | hb2
        · exact absurd he2.symm hne
        · exact hb2
      exact Or.inl (List.mem_append.mpr (Or.inl (List.mem_map.mpr ⟨b, hb2, rfl⟩)))
    · rcases List.mem_cons.mp hb with he2 | hb2
      · subst he2
        exact Or.inr (List.mem_append.mpr (Or.inl (List.mem_map.mpr ⟨a, ha2, rfl⟩)))
      · rcases ih ha2 hb2 with h | h
        · exact Or.inl (List.mem_append.mpr (Or.inr h))
        · exact Or.inr (List.mem_append.mpr (Or.inr h))

theorem mutexLookup_mutexAdd_eq (m : MutexMap σ) (a b x : PgNode σ) :
    mutexLookup (mutexAdd m a b) x =
      if a = x then
        (if b ∈ mutexLookup m a then mutexLookup m a else mutexLookup m a ++ [b])
      else mutexLookup m x := by
  induction m with
  | nil =>
    by_cases h : a = x <;> simp [mutexAdd, mutexLookup, h]
  | cons p rest ih =>
    obtain ⟨k, s⟩ := p
    by_cases h1 : k = a
    · subst h1
      by_cases h2 : k = x
      · subst h2
        simp [mutexAdd, mutexLookup]
      · have h3 : ¬ k = x := h2
        simp [mutexAdd, mutexLookup, h3]
    · by_cases h2 : k = x
      · subst h2
        have h3 : ¬ k = a := h1
        have h4 : ¬ a = k := fun he => h1 he.symm
        simp [mutexAdd, mutexLookup, h3, h4]
      · simp [mutexAdd, mutexLookup, h1, h2, ih]

theorem mem_mutexLookup_mutexAdd (m : MutexMap σ) (a b x y : PgNode σ) :
    y ∈ mutexLookup (mutexAdd m a b) x ↔
      y ∈ mutexLookup m x ∨ (x = a ∧ y = b) := by
  rw [mutexLookup_mutexAdd_eq]
  by_cases h : a = x
  · subst h
    rw [if_pos rfl]
    by_cases hb : b ∈ mutexLookup m a
    · rw [if_pos hb]
      constructor
      · intro hy; exact Or.inl hy
      · rintro (hy | ⟨-, rfl⟩)
        · exact hy
        · exact hb
    · rw [if_neg hb]
      constructor
      · intro hy
        rcases List.mem_append.mp hy with hy | hy
        · exact Or.inl hy
        · exact Or.inr ⟨rfl, List.mem_singleton.mp hy⟩
      · rintro (hy | ⟨-, rfl⟩)
        · exact List.mem_append.mpr (Or.inl hy)
        · exact List.mem_append.mpr (Or.inr (List.mem_singleton.mpr rfl))
  · rw [if_neg h]
    constructor
    · intro hy; exact Or.inl hy
    · rintro (hy | ⟨rfl, rfl⟩)
      · exact hy
      · exact absurd rfl h

theorem mem_mutexLookup_mutexify_pair (m : MutexMap σ) (a b x y : PgNode σ) :
    y ∈ mutexLookup (mutexify_pair m a b) x ↔
      y ∈ mutexLookup m x ∨ (x = a ∧ y = b) ∨ (x = b ∧ y = a) := by
  unfold mutexify_pair
  rw [mem_mutexLookup_mutexAdd, mem_mutexLookup_mutexAdd]
  tauto

theorem foldl_mutex_mono (test : PgNode_a σ → PgNode_a σ → Bool) :
    ∀ (pairs : List (PgNode_a σ × PgNode_a σ)) (m0 : MutexMap σ) (x y : PgNode σ),
      y ∈ mutexLookup m0 x →
      y ∈ mutexLookup (pairs.foldl (fun m p =>
        if test p.1 p.2 then mutexify_pair m (PgNode.act p.1) (PgNode.act p.2) else m) m0) x := by
  intro pairs
  induction pairs with
  | nil => intro m0 x y h; exact h
  | cons q rest ih =>
    intro m0 x y h
    rw [List.foldl_cons]
    apply ih
    by_cases ht : test q.1 q.2 = true
    · rw [if_pos ht]
      exact (mem_mutexLookup_mutexify_pair _ _ _ _ _).mpr (Or.inl h)
    · rw [if_neg ht]
      exact h

theorem foldl_mutex_marks (test : PgNode_a σ → PgNode_a σ → Bool) :
    ∀ (pairs : List (PgNode_a σ × PgNode_a σ)) (m0 : MutexMap σ) (n1 n2 : PgNode_a σ),
      (n1, n2) ∈ pairs → test n1 n2 = true →
      PgNode.act n2 ∈ mutexLookup (pairs.foldl (fun m p =>
        if test p.1 p.2 then mutexify_pair m (PgNode.act p.1) (PgNode.act p.2) else m) m0)
        (PgNode.act n1) ∧
      PgNode.act n1 ∈ mutexLookup (pairs.foldl (fun m p =>
        if test p.1 p.2 then mutexify_pair m (PgNode.act p.1) (PgNode.act p.2) else m) m0)
        (PgNode.act n2) := by
  intro pairs
  induction pairs with
  | nil => intro m0 n1 n2 hp; cases hp
  | cons q rest ih =>
    intro m0 n1 n2 hp ht
    rcases List.mem_cons.mp hp with he | hp2
    · subst he
      rw [List.foldl_cons, if_pos ht]
      constructor
      · exact foldl_mutex_mono test rest _ _ _
          ((mem_mutexLookup_mutexify_pair _ _ _ _ _).mpr (Or.inr (Or.inl ⟨rfl, rfl⟩)))
      · exact foldl_mutex_mono test rest _ _ _
          ((mem_mutexLookup_mutexify_pair _ _ _ _ _).mpr (Or.inr (Or.inr ⟨rfl, rfl⟩)))
    · rw [List.foldl_cons]
      exact ih _ n1 n2 hp2 ht

/-! ### Claim theorem: competing needs over full-level parents (C4) -/

/-- Claim C4: every admitted action node's parent set is the whole
preceding literal level, so `competing_needs_mutex` on two same-level
action nodes holds exactly when some pair of literals of that level is
mutex; consequently, once such a literal mutex exists, `update_a_mutex`
marks every pair of distinct action nodes of the level mutex. -/
theorem competing_needs_all_pairs (actions : List (Action σ)) (lvl : List (PgNode_s σ))
    (smutex : PgNode_s σ → PgNode_s σ → Bool) (serial : Bool) (m0 : MutexMap σ) :
    (∀ n1 ∈ (add_action_level actions lvl).1, ∀ n2 ∈ (add_action_level actions lvl).1,
      (competing_needs_mutex smutex n1 n2 = true ↔
        ∃ l1 ∈ lvl, ∃ l2 ∈ lvl, smutex l1 l2 = true)) ∧
    ((∃ l1 ∈ lvl, ∃ l2 ∈ lvl, smutex l1 l2 = true) →
      ∀ n1 ∈ (add_action_level actions lvl).1, ∀ n2 ∈ (add_action_level actions lvl).1,
        n1 ≠ n2 →
        PgNode.act n2 ∈ mutexLookup
          (update_a_mutex serial smutex (add_action_level actions lvl).1 m0) (PgNode.act n1) ∧
        PgNode.act n1 ∈ mutexLookup
          (update_a_mutex serial smutex (add_action_level actions lvl).1 m0) (PgNode.act n2)) := by
  have hcomp : ∀ n1 ∈ (add_action_level actions lvl).1, ∀ n2 ∈ (add_action_level actions lvl).1,
      (competing_needs_mutex smutex n1 n2 = true ↔
        ∃ l1 ∈ lvl, ∃ l2 ∈ lvl, smutex l1 l2 = true) := by
    intro n1 h1 n2 h2
    rcases (mem_add_action_level actions lvl n1).mp h1 with ⟨a1, ha1, hp1, he1⟩
    rcases (mem_add_action_level actions lvl n2).mp h2 with ⟨a2, ha2, hp2, he2⟩
    subst he1
    subst he2
    simp [competing_needs_mutex, List.any_eq_true]
  refine ⟨hcomp, ?_⟩
  rintro hmx n1 h1 n2 h2 hne
  have ht : a_mutex_test serial smutex n1 n2 = true := by
    have hc := (hcomp n1 h1 n2 h2).mpr hmx
    simp [a_mutex_test, hc]
  have ht2 : a_mutex_test serial smutex n2 n1 = true := by
    have hc := (hcomp n2 h2 n1 h1).mpr hmx
    simp [a_mutex_test, hc]
  rcases pairsOf_cases (add_action_level actions lvl).1 n1 n2 h1 h2 hne with hp | hp
  · exact foldl_mutex_marks (a_mutex_test serial smutex) _ m0 n1 n2 hp ht
  · have h := foldl_mutex_marks (a_mutex_test serial smutex) _ m0 n2 n1 hp ht2
    exact ⟨h.2, h.1⟩

/-- Witness for C4 over a one-fluent level containing both polarities,
with the negation relation as the literal mutex state. -/
theorem competing_needs_all_pairs_witness :
    PgNode.act (⟨⟨AName.noop_neg 0, [], [0], [], [0]⟩,
        [⟨0, true⟩, ⟨0, false⟩]⟩ : PgNode_a Nat) ∈
      mutexLookup
        (update_a_mutex false negation_mutex
          (add_action_level (noop_actions [0])
            ([⟨0, true⟩, ⟨0, false⟩] : List (PgNode_s Nat))).1 [])
        (PgNode.act ⟨⟨AName.noop_pos 0, [0], [], [0], []⟩, [⟨0, true⟩, ⟨0, false⟩]⟩) := by
  have h := (competing_needs_all_pairs (noop_actions [0])
    ([⟨0, true⟩, ⟨0, false⟩] : List (PgNode_s Nat)) negation_mutex false []).2
    ⟨⟨0, true⟩, by decide, ⟨0, false⟩, by decide, by decide⟩
    ⟨⟨AName.noop_pos 0, [0], [], [0], []⟩, [⟨0, true⟩, ⟨0, false⟩]⟩ (by decide)
    ⟨⟨AName.noop_neg 0, [], [0], [], [0]⟩, [⟨0, true⟩, ⟨0, false⟩]⟩ (by decide)
    (by decide)
  exact h.1

/-! ### Literal-level growth and leveling (C6, C7) -/

theorem mem_foldl_append_eff (anodes : List (PgNode_a σ)) :
    ∀ (acc : List (PgNode_s σ)) (x : PgNode_s σ),
      x ∈ anodes.foldl (fun acc an => acc ++ effnodes an.action) acc ↔
        x ∈ acc ∨ ∃ an ∈ anodes, x ∈ effnodes an.action := by
  induction anodes with
  | nil => intro acc x; simp
  | cons an rest ih =>
    intro acc x
    rw [List.foldl_cons, ih]
    constructor
    · rintro (h | ⟨an2, ha2, he2⟩)
      · rcases List.mem_append.mp h with h | h
        · exact Or.inl h
        · exact Or.inr ⟨an, List.mem_cons_self an rest, h⟩
      · exact Or.inr ⟨an2, List.mem_cons_of_mem an ha2, he2⟩
    · rintro (h | ⟨an2, ha2, he2⟩)
      · exact Or.inl (List.mem_append.mpr (Or.inl h))
      · rcases List.mem_cons.mp ha2 with he | ha2
        · subst he; exact Or.inl (List.mem_append.mpr (Or.inr he2))
        · exact Or.inr ⟨an2, ha2, he2⟩

theorem mem_add_literal_level (anodes : List (PgNode_a σ)) (x : PgNode_s σ) :
    x ∈ add_literal_level anodes ↔ ∃ an ∈ anodes, x ∈ effnodes an.action := by
  unfold add_literal_level
  rw [List.mem_dedup, mem_foldl_append_eff]
  simp

theorem noop_pos_mem (fluents : List σ) (f : σ) (hf : f ∈ fluents) :
    (⟨AName.noop_pos f, [f], [], [f], []⟩ : Action σ) ∈ noop_actions fluents := by
  unfold noop_actions
  rw [List.mem_flatMap]
  exact ⟨f, hf, by simp⟩

theorem noop_neg_mem (fluents : List σ) (f : σ) (hf : f ∈ fluents) :
    (⟨AName.noop_neg f, [], [f], [], [f]⟩ : Action σ) ∈ noop_actions fluents := by
  unfold noop_actions
  rw [List.mem_flatMap]
  exact ⟨f, hf, by simp⟩

theorem nextLiteralLevel_mono (fluents : List σ) (actions : List (Action σ))
    (lvl : List (PgNode_s σ))
    (hnoop : ∀ a ∈ noop_actions fluents, a ∈ actions)
    (hsym : ∀ n ∈ lvl, n.symbol ∈ fluents) :
    ∀ n ∈ lvl, n ∈ nextLiteralLevel actions lvl := by
  rintro ⟨s, b⟩ hn
  have hf : s ∈ fluents := hsym ⟨s, b⟩ hn
  unfold nextLiteralLevel
  rw [mem_add_literal_level]
  cases b
  · refine ⟨⟨⟨AName.noop_neg s, [], [s], [], [s]⟩, lvl⟩, ?_, ?_⟩
    · rw [mem_add_action_level]
      refine ⟨_, hnoop _ (noop_neg_mem fluents s hf), ?_, rfl⟩
      intro p hp
      simp only [prenodes, List.map_nil, List.map_cons, List.nil_append,
        List.mem_singleton] at hp
      rw [hp]
      exact hn
    · simp [effnodes]
  · refine ⟨⟨⟨AName.noop_pos s, [s], [], [s], []⟩, lvl⟩, ?_, ?_⟩
    · rw [mem_add_action_level]
      refine ⟨_, hnoop _ (noop_pos_mem fluents s hf), ?_, rfl⟩
      intro p hp
      simp only [prenodes, List.map_nil, List.map_cons, List.nil_append,
        List.append_nil, List.mem_singleton] at hp
      rw [hp]
      exact hn
    · simp [effnodes]

theorem nextLiteralLevel_symbols (fluents : List σ) (actions : List (Action σ))
    (lvl : List (PgNode_s σ))
    (heff : ∀ a ∈ actions,
      (∀ s ∈ a.effect_add, s ∈ fluents) ∧ (∀ s ∈ a.effect_rem, s ∈ fluents)) :
    ∀ n ∈ nextLiteralLevel actions lvl, n.symbol ∈ fluents := by
  intro n hn
  rw [nextLiteralLevel, mem_add_literal_level] at hn
  rcases hn with ⟨an, han, heffn⟩
  rcases (mem_add_action_level actions lvl an).mp han with ⟨a, ha, hp, rfl⟩
  rcases List.mem_append.mp heffn with h | h
  · rcases List.mem_map.mp h with ⟨e, he, rfl⟩
    exact (heff a ha).1 e he
  · rcases List.mem_map.mp h with ⟨e, he, rfl⟩
    exact (heff a ha).2 e he

theorem eqset_iff_forall (l1 l2 : List (PgNode_s σ)) :
    eqset l1 l2 = true ↔ ∀ x, x ∈ l1 ↔ x ∈ l2 := by
  unfold eqset
  rw [Bool.and_eq_true, List.all_eq_true, List.all_eq_true]
  simp only [decide_eq_true_eq]
  constructor
  · rintro ⟨h1, h2⟩ x
    exact ⟨h1 x, h2 x⟩
  · intro h
    exact ⟨fun x hx => (h x).mp hx, fun x hx => (h x).mpr hx⟩

theorem eqset_iff_toFinset (l1 l2 : List (PgNode_s σ)) :
    eqset l1 l2 = true ↔ l1.toFinset = l2.toFinset := by
  rw [eqset_iff_forall]
  constructor
  · intro h
    apply Finset.ext
    intro x
    rw [List.mem_toFinset, List.mem_toFinset]
    exact h x
  · intro h x
    rw [← List.mem_toFinset, ← List.mem_toFinset, h]

theorem iterLevel_symbols (fluents : List σ) (actions : List (Action σ))
    (lvl0 : List (PgNode_s σ))
    (heff : ∀ a ∈ actions,
      (∀ s ∈ a.effect_add, s ∈ fluents) ∧ (∀ s ∈ a.effect_rem, s ∈ fluents))
    (hlvl0 : ∀ n ∈ lvl0, n.symbol ∈ fluents) :
    ∀ k, ∀ n ∈ iterLevel actions lvl0 k, n.symbol ∈ fluents := by
  intro k
  induction k with
  | zero => exact hlvl0
  | succ k ih => exact nextLiteralLevel_symbols fluents actions (iterLevel actions lvl0 k) heff

theorem iterLevel_mono (fluents : List σ) (actions : List (Action σ))
    (lvl0 : List (PgNode_s σ))
    (hnoop : ∀ a ∈ noop_actions fluents, a ∈ actions)
    (heff : ∀ a ∈ actions,
      (∀ s ∈ a.effect_add, s ∈ fluents) ∧ (∀ s ∈ a.effect_rem, s ∈ fluents))
    (hlvl0 : ∀ n ∈ lvl0, n.symbol ∈ fluents) :
    ∀ k, ∀ x ∈ iterLevel actions lvl0 k, x ∈ iterLevel actions lvl0 (k + 1) := by
  intro k
  exact nextLiteralLevel_mono fluents actions (iterLevel actions lvl0 k) hnoop
    (iterLevel_symbols fluents actions lvl0 heff hlvl0 k)

theorem iterLevel_in_universe (fluents : List σ) (actions : List (Action σ))
    (lvl0 : List (PgNode_s σ))
    (heff : ∀ a ∈ actions,
      (∀ s ∈ a.effect_add, s ∈ fluents) ∧ (∀ s ∈ a.effect_rem, s ∈ fluents))
    (hlvl0 : ∀ n ∈ lvl0, n.symbol ∈ fluents) :
    ∀ k, (iterLevel actions lvl0 k).toFinset ⊆
      (fluents.flatMap (fun f => [⟨f, true⟩, (⟨f, false⟩ : PgNode_s σ)])).toFinset := by
  intro k x hx
  rw [List.mem_toFinset] at hx ⊢
  obtain ⟨s, b⟩ := x
  have hf : s ∈ fluents := iterLevel_symbols fluents actions lvl0 heff hlvl0 k ⟨s, b⟩ hx
  rw [List.mem_flatMap]
  refine ⟨s, hf, ?_⟩
  cases b <;> simp

theorem exists_leveled (fluents : List σ) (actions : List (Action σ))
    (lvl0 : List (PgNode_s σ))
    (hnoop : ∀ a ∈ noop_actions fluents, a ∈ actions)
    (heff : ∀ a ∈ actions,
      (∀ s ∈ a.effect_add, s ∈ fluents) ∧ (∀ s ∈ a.effect_rem, s ∈ fluents))
    (hlvl0 : ∀ n ∈ lvl0, n.symbol ∈ fluents) :
    ∃ k, eqset (iterLevel actions lvl0 (k + 1)) (iterLevel actions lvl0 k) = true := by
  by_contra hno
  push_neg at hno
  have hne : ∀ k, (iterLevel actions lvl0 (k + 1)).toFinset ≠
      (iterLevel actions lvl0 k).toFinset := by
    intro k he
    exact hno k ((eqset_iff_toFinset _ _).mpr he)
  have hsubs : ∀ k, (iterLevel actions lvl0 k).toFinset ⊆
      (iterLevel actions lvl0 (k + 1)).toFinset := by
    intro k x hx
    rw [List.mem_toFinset] at hx ⊢
    exact iterLevel_mono fluents actions lvl0 hnoop heff hlvl0 k x hx
  have hcard : ∀ k, (iterLevel actions lvl0 k).toFinset.card <
      (iterLevel actions lvl0 (k + 1)).toFinset.card := by
    intro k
    apply Finset.card_lt_card
    rw [Finset.ssubset_iff_subset_ne]
    exact ⟨hsubs k, fun he => hne k he.symm⟩
  have hge : ∀ k, k ≤ (iterLevel actions lvl0 k).toFinset.card := by
    intro k
    induction k with
    | zero => exact Nat.zero_le _
    | succ k ih => exact Nat.lt_of_le_of_lt ih (hcard k)
  have hbound := Finset.card_le_card (iterLevel_in_universe fluents actions lvl0 heff hlvl0
    ((fluents.flatMap (fun f => [⟨f, true⟩, (⟨f, false⟩ : PgNode_s σ)])).toFinset.card + 1))
  have hge2 := hge
    ((fluents.flatMap (fun f => [⟨f, true⟩, (⟨f, false⟩ : PgNode_s σ)])).toFinset.card + 1)
  omega

theorem iterLevel_shift (actions : List (Action σ)) (lvl : List (PgNode_s σ)) :
    ∀ k, iterLevel actions lvl (k + 1) =
      iterLevel actions (nextLiteralLevel actions lvl) k := by
  intro k
  induction k with
  | zero => rfl
  | succ k ih =>
    have h1 : iterLevel actions lvl (k + 1 + 1) =
        nextLiteralLevel actions (iterLevel actions lvl (k + 1)) := rfl
    rw [h1, ih]
    rfl

theorem create_graph_loop_isSome (actions : List (Action σ)) :
    ∀ (fuel : Nat) (lvl : List (PgNode_s σ)),
      (∃ k, k < fuel ∧ eqset (iterLevel actions lvl (k + 1)) (iterLevel actions lvl k) = true) →
      (create_graph_loop actions lvl fuel).isSome = true := by
  intro fuel
  induction fuel with
  | zero =>
    rintro lvl ⟨k, hk, -⟩
    omega
  | succ fuel ih =>
    rintro lvl ⟨k, hk, heq⟩
    by_cases h0 : eqset (nextLiteralLevel actions lvl) lvl = true
    · simp [create_graph_loop, h0]
    · have hk0 : k ≠ 0 := by
        intro he
        subst he
        exact h0 heq
      obtain ⟨j, rfl⟩ : ∃ j, k = j + 1 := ⟨k - 1, by omega⟩
      have heq2 : eqset (iterLevel actions (nextLiteralLevel actions lvl) (j + 1))
          (iterLevel actions (nextLiteralLevel actions lvl) j) = true := by
        rw [← iterLevel_shift, ← iterLevel_shift]
        exact heq
      have hrec := ih (nextLiteralLevel actions lvl) ⟨j, by omega, heq2⟩
      simp only [create_graph_loop]
      rw [if_neg h0]
      cases hloop : create_graph_loop actions (nextLiteralLevel actions lvl) fuel with
      | none => rw [hloop] at hrec; simp at hrec
      | some ls => simp

/-- Claim C6: over a finite fluent vocabulary closed under the actions'
effects and containing a no-op pair for each fluent, the leveling loop
terminates: some fuel suffices for `create_graph_loop` to reach two
consecutive literal levels that are equal as sets and halt. -/
theorem create_graph_terminates (fluents : List σ) (actions : List (Action σ))
    (lvl0 : List (PgNode_s σ))
    (hnoop : ∀ a ∈ noop_actions fluents, a ∈ actions)
    (heff : ∀ a ∈ actions,
      (∀ s ∈ a.effect_add, s ∈ fluents) ∧ (∀ s ∈ a.effect_rem, s ∈ fluents))
    (hlvl0 : ∀ n ∈ lvl0, n.symbol ∈ fluents) :
    ∃ fuel, (create_graph_loop actions lvl0 fuel).isSome = true := by
  obtain ⟨k, hk⟩ := exists_leveled fluents actions lvl0 hnoop heff hlvl0
  exact ⟨k + 1, create_graph_loop_isSome actions (k + 1) lvl0 ⟨k, by omega, hk⟩⟩

/-- Witness for C6: the single-fluent no-op-only problem levels off. -/
theorem create_graph_terminates_witness :
    ∃ fuel, (create_graph_loop (noop_actions [0])
      ([⟨0, true⟩] : List (PgNode_s Nat)) fuel).isSome = true :=
  create_graph_terminates [0] (noop_actions [0]) [⟨0, true⟩]
    (by decide) (by decide) (by decide)

theorem create_graph_loop_head (actions : List (Action σ)) :
    ∀ (fuel : Nat) (lvl : List (PgNode_s σ)) (ls : List (List (PgNode_s σ))),
      create_graph_loop actions lvl fuel = some ls → ∃ tl, ls = lvl :: tl := by
  intro fuel
  induction fuel with
  | zero => intro lvl ls h; cases h
  | succ fuel ih =>
    intro lvl ls h
    simp only [create_graph_loop] at h
    by_cases h0 : eqset (nextLiteralLevel actions lvl) lvl = true
    · rw [if_pos h0] at h
      injection h with he
      exact ⟨[nextLiteralLevel actions lvl], he.symm⟩
    · rw [if_neg h0] at h
      cases hloop : create_graph_loop actions (nextLiteralLevel actions lvl) fuel with
      | none => rw [hloop] at h; cases h
      | some ls2 =>
        rw [hloop] at h
        injection h with he
        exact ⟨ls2, he.symm⟩

/-- Claim C7: in a built graph, each literal level is a subset of the
next one: the no-op actions carry every literal forward, so the literal
levels grow monotonically. -/
theorem s_levels_monotone (fluents : List σ) (actions : List (Action σ)) :
    ∀ (fuel : Nat) (lvl0 : List (PgNode_s σ)) (ls : List (List (PgNode_s σ))),
      (∀ a ∈ noop_actions fluents, a ∈ actions) →
      (∀ a ∈ actions,
        (∀ s ∈ a.effect_add, s ∈ fluents) ∧ (∀ s ∈ a.effect_rem, s ∈ fluents)) →
      (∀ n ∈ lvl0, n.symbol ∈ fluents) →
      create_graph_loop actions lvl0 fuel = some ls →
      ∀ i, i + 1 < ls.length → ∀ n ∈ ls.getD i [], n ∈ ls.getD (i + 1) [] := by
  intro fuel
  induction fuel with
  | zero => intro lvl0 ls hnoop heff hlvl0 h; cases h
  | succ fuel ih =>
    intro lvl0 ls hnoop heff hlvl0 h
    have hmono := nextLiteralLevel_mono fluents actions lvl0 hnoop hlvl0
    simp only [create_graph_loop] at h
    by_cases h0 : eqset (nextLiteralLevel actions lvl0) lvl0 = true
    · rw [if_pos h0] at h
      injection h with he
      subst he
      intro i hi n hn
      simp only [List.length_cons, List.length_nil] at hi
      have hi0 : i = 0 := by omega
      subst hi0
      rw [List.getD_cons_zero] at hn
      rw [List.getD_cons_succ, List.getD_cons_zero]
      exact hmono n hn
    · rw [if_neg h0] at h
      cases hloop : create_graph_loop actions (nextLiteralLevel actions lvl0) fuel with
      | none => rw [hloop] at h; cases h
      | some ls2 =>
        rw [hloop] at h
        injection h with he
        subst he
        intro i hi n hn
        cases i with
        | zero =>
          rw [List.getD_cons_zero] at hn
          rw [List.getD_cons_succ]
          obtain ⟨tl, rfl⟩ := create_graph_loop_head actions fuel
            (nextLiteralLevel actions lvl0) ls2 hloop
          rw [List.getD_cons_zero]
          exact hmono n hn
        | succ j =>
          rw [List.getD_cons_succ] at hn
          rw [List.getD_cons_succ]
          have hsym2 := nextLiteralLevel_symbols fluents actions lvl0 heff
          have hlen : j + 1 < ls2.length := by
            simp only [List.length_cons] at hi
            omega
          exact ih (nextLiteralLevel actions lvl0) ls2 hnoop heff hsym2 hloop j hlen n hn

/-- Witness for C7 on the built single-fluent graph. -/
theorem s_levels_monotone_witness :
    (⟨0, true⟩ : PgNode_s Nat) ∈
      ([[⟨0, true⟩], [⟨0, true⟩]] : List (List (PgNode_s Nat))).getD 1 [] :=
  s_levels_monotone [0] (noop_actions [0]) 1 [⟨0, true⟩] [[⟨0, true⟩], [⟨0, true⟩]]
    (by decide) (by decide) (by decide) (by decide) 0 (by decide) ⟨0, true⟩ (by decide)

/-! ### Claim theorem: mutex symmetry (C10) -/

theorem symm_mutexify_pair (m : MutexMap σ) (a b : PgNode σ) (h : SymmMap m) :
    SymmMap (mutexify_pair m a b) := by
  intro x y hy
  rw [mem_mutexLookup_mutexify_pair] at hy ⊢
  rcases hy with hy | ⟨rfl, rfl⟩ | ⟨rfl, rfl⟩
  · exact Or.inl (h x y hy)
  · exact Or.inr (Or.inr ⟨rfl, rfl⟩)
  · exact Or.inr (Or.inl ⟨rfl, rfl⟩)

theorem symm_foldl {β : Type} (f : MutexMap σ → β → MutexMap σ)
    (hf : ∀ m p, SymmMap m → SymmMap (f m p)) :
    ∀ (l : List β) (m : MutexMap σ), SymmMap m → SymmMap (l.foldl f m) := by
  intro l
  induction l with
  | nil => intro m h; exact h
  | cons q rest ih => intro m h; exact ih _ (hf m q h)

/-- Claim C10: the mutex relation stays symmetric at every step of
construction: `mutexify` preserves symmetry of the accumulated mutex
sets, and so does every full `update_a_mutex` / `update_s_mutex` pass
(each of which only writes through `mutexify`). -/
theorem mutex_symmetry_preserved :
    (∀ (m m2 : MutexMap σ) (n1 n2 : PgNode σ), SymmMap m →
        mutexify m n1 n2 = Except.ok m2 → SymmMap m2) ∧
    (∀ (serial : Bool) (smutex : PgNode_s σ → PgNode_s σ → Bool)
        (nodelist : List (PgNode_a σ)) (m0 : MutexMap σ),
        SymmMap m0 → SymmMap (update_a_mutex serial smutex nodelist m0)) ∧
    (∀ (sparents : PgNode_s σ → List (PgNode_a σ)) (amutex : PgNode_a σ → PgNode_a σ → Bool)
        (nodelist : List (PgNode_s σ)) (m0 : MutexMap σ),
        SymmMap m0 → SymmMap (update_s_mutex sparents amutex nodelist m0)) := by
  refine ⟨?_, ?_, ?_⟩
  · intro m m2 n1 n2 hs hok
    by_cases ht : sameNodeType n1 n2 = true
    · rw [mutexify, if_pos ht] at hok
      injection hok with he
      rw [← he]
      exact symm_mutexify_pair m n1 n2 hs
    · rw [mutexify, if_neg ht] at hok
      cases hok
  · intro serial smutex nodelist m0 h0
    unfold update_a_mutex
    apply symm_foldl
    · intro m p hm
      by_cases ht : a_mutex_test serial smutex p.1 p.2 = true
      · rw [if_pos ht]
        exact symm_mutexify_pair m _ _ hm
      · rw [if_neg ht]
        exact hm
    · exact h0
  · intro sparents amutex nodelist m0 h0
    unfold update_s_mutex
    apply symm_foldl
    · intro m p hm
      by_cases ht : (negation_mutex p.1 p.2 ||
          inconsistent_support_mutex amutex (sparents p.1) (sparents p.2)) = true
      · rw [if_pos ht]
        exact symm_mutexify_pair m _ _ hm
      · rw [if_neg ht]
        exact hm
    · exact h0

/-- Witness for C10 at a concrete update pass starting from empty mutex
state. -/
theorem mutex_symmetry_preserved_witness :
    SymmMap (update_a_mutex false negation_mutex
      ([⟨⟨AName.noop_pos 0, [0], [], [0], []⟩, []⟩] : List (PgNode_a Nat)) []) :=
  mutex_symmetry_preserved.2.1 false negation_mutex
    [⟨⟨AName.noop_pos 0, [0], [], [0], []⟩, []⟩] []
    (fun a b h => absurd h (List.not_mem_nil b))

/-! ### Claim theorem: inconsistent support counting (C2) -/

/-- Claim C2: for literal nodes with nonempty parent sets,
`inconsistent_support_mutex` returns `true` exactly when the number of
parent pairs `(p1, p2)` of the cross product that are mutex equals the
size of the first node's parent set. -/
theorem inconsistent_support_mutex_count (amutex : PgNode_a σ → PgNode_a σ → Bool)
    (parents1 parents2 : List (PgNode_a σ))
    (h1 : parents1 ≠ []) (h2 : parents2 ≠ []) :
    inconsistent_support_mutex amutex parents1 parents2 = true ↔
      (crossPairs parents1 parents2).countP (fun q => amutex q.1 q.2) = parents1.length := by
  have hcnt : (parents1.foldl
      (fun c p1 => parents2.foldl (fun c2 p2 => if amutex p1 p2 then c2 + 1 else c2) c) 0)
      = (crossPairs parents1 parents2).countP (fun q => amutex q.1 q.2) := by
    have hstep : (fun (c : Nat) (p1 : PgNode_a σ) =>
        parents2.foldl (fun c2 p2 => if amutex p1 p2 then c2 + 1 else c2) c)
        = fun c p1 => c + parents2.countP (fun p2 => amutex p1 p2) := by
      funext c p1
      exact foldl_count_inner amutex p1 parents2 c
    rw [hstep, foldl_add_sum, countP_crossPairs]
    simp
  unfold inconsistent_support_mutex
  rw [hcnt]
  exact beq_iff_eq

/-- Witness for C2 at concrete singleton parent sets under an
everywhere-true mutex relation. -/
theorem inconsistent_support_mutex_count_witness :
    inconsistent_support_mutex (fun _ _ => true)
      [(⟨⟨AName.domain 0, [], [], [], []⟩, []⟩ : PgNode_a Nat)]
      [⟨⟨AName.domain 1, [], [], [], []⟩, []⟩] = true :=
  (inconsistent_support_mutex_count (fun _ _ => true)
    [⟨⟨AName.domain 0, [], [], [], []⟩, []⟩]
    [⟨⟨AName.domain 1, [], [], [], []⟩, []⟩]
    (by decide) (by decide)).mpr (by decide)

/-! ### Heuristic scan lemmas (C1, C5) -/

theorem findGoalAtLevel_some_spec (goals checked : List σ) :
    ∀ (lvl : List (PgNode_s σ)) (g : σ), findGoalAtLevel goals checked lvl = some g →
      g ∈ goals ∧ g ∉ checked ∧ ∃ n ∈ lvl, n.symbol = g := by
  intro lvl
  induction lvl with
  | nil => intro g h; cases h
  | cons n rest ih =>
    intro g h
    simp only [findGoalAtLevel] at h
    cases hf : goals.find? (fun g2 => decide (n.symbol = g2) && !(decide (g2 ∈ checked))) with
    | some g2 =>
      rw [hf] at h
      injection h with he
      subst he
      have hp := List.find?_some hf
      have hm := List.mem_of_find?_eq_some hf
      simp only [Bool.and_eq_true, decide_eq_true_eq, Bool.not_eq_true',
        decide_eq_false_iff_not] at hp
      exact ⟨hm, hp.2, n, List.mem_cons_self n rest, hp.1⟩
    | none =>
      rw [hf] at h
      rcases ih g h with ⟨h1, h2, n2, hn2, hs⟩
      exact ⟨h1, h2, n2, List.mem_cons_of_mem n hn2, hs⟩

theorem findGoalAtLevel_none_spec (goals checked : List σ) :
    ∀ (lvl : List (PgNode_s σ)), findGoalAtLevel goals checked lvl = none →
      ∀ n ∈ lvl, ∀ g ∈ goals, ¬(n.symbol = g ∧ g ∉ checked) := by
  intro lvl
  induction lvl with
  | nil => intro h n hn; cases hn
  | cons n2 rest ih =>
    intro h n hn g hg
    simp only [findGoalAtLevel] at h
    cases hf : goals.find? (fun g2 => decide (n2.symbol = g2) && !(decide (g2 ∈ checked))) with
    | some g2 => rw [hf] at h; cases h
    | none =>
      rw [hf] at h
      rcases List.mem_cons.mp hn with he | hn2
      · subst he
        rintro ⟨hs, hc⟩
        have hg2 := List.find?_eq_none.mp hf g hg
        simp only [Bool.and_eq_true, decide_eq_true_eq, Bool.not_eq_true',
          decide_eq_false_iff_not, not_and] at hg2
        exact hg2 hs hc
      · exact ih h n hn2 g hg

theorem sum_extract (g0 : σ) (f : σ → Int) :
    ∀ (l : List σ), l.Nodup → g0 ∈ l →
      (l.map f).sum = f g0 + ((l.filter (fun g => !decide (g = g0))).map f).sum := by
  intro l
  induction l with
  | nil => intro _ hg; cases hg
  | cons a t ih =>
    intro hnd hg
    have hna := (List.nodup_cons.mp hnd).1
    have hnd2 := (List.nodup_cons.mp hnd).2
    rcases List.mem_cons.mp hg with he | hg2
    · subst he
      have hfil : t.filter (fun g => !decide (g = g0)) = t := by
        apply List.filter_eq_self.mpr
        intro x hx
        rw [Bool.not_eq_true', decide_eq_false_iff_not]
        intro he2
        exact hna (he2 ▸ hx)
      rw [List.map_cons, List.sum_cons, List.filter_cons]
      simp [hfil]
    · have hne : ¬ (a = g0) := fun he => hna (he ▸ hg2)
      rw [List.map_cons, List.sum_cons, ih hnd2 hg2, List.filter_cons]
      simp [hne]
      omega

/-- The heuristic's level loop, fully characterized when every goal not
yet checked appears in some remaining level and no two of them first
appear at the same level: the loop adds, for each such goal, the current
base index plus the goal's first-appearance offset. -/
theorem h_levelsum_aux_eq (goals : List σ) (hnd : goals.Nodup) :
    ∀ (lvls : List (List (PgNode_s σ))) (checked : List σ) (idx : Nat) (acc : Int),
      (∀ g ∈ goals, g ∉ checked → (firstLevelWithSymbol g lvls).isSome = true) →
      (∀ g1 ∈ goals, ∀ g2 ∈ goals, g1 ∉ checked → g2 ∉ checked →
        firstLevelWithSymbol g1 lvls = firstLevelWithSymbol g2 lvls → g1 = g2) →
      h_levelsum_aux goals lvls checked idx acc =
        acc + ((goals.filter (fun g => !decide (g ∈ checked))).map
          (fun g => (idx : Int) + ((firstLevelWithSymbol g lvls).getD 0 : Int))).sum := by
  intro lvls
  induction lvls with
  | nil =>
    intro checked idx acc hall hinj
    have hemp : goals.filter (fun g => !decide (g ∈ checked)) = [] := by
      rw [List.filter_eq_nil_iff]
      intro g hg
      rw [Bool.not_eq_true, Bool.not_eq_false', decide_eq_true_iff]
      by_contra hc
      have h1 := hall g hg hc
      simp [firstLevelWithSymbol] at h1
    rw [hemp]
    simp [h_levelsum_aux]
  | cons lvl rest ih =>
    intro checked idx acc hall hinj
    cases hf : findGoalAtLevel goals checked lvl with
    | some g0 =>
      obtain ⟨hg0, hc0, n0, hn0, hs0⟩ := findGoalAtLevel_some_spec goals checked lvl g0 hf
      have hany0 : lvl.any (fun n => decide (n.symbol = g0)) = true := by
        rw [List.any_eq_true]
        exact ⟨n0, hn0, by simp [hs0]⟩
      have hfirst0 : firstLevelWithSymbol g0 (lvl :: rest) = some 0 := by
        simp [firstLevelWithSymbol, hany0]
      have hother : ∀ g ∈ goals, g ∉ checked → ¬ (g = g0) →
          lvl.any (fun n => decide (n.symbol = g)) = false := by
        intro g hg hc hne
        by_contra hcon
        rw [Bool.not_eq_false] at hcon
        have h : firstLevelWithSymbol g (lvl :: rest) = some 0 := by
          simp [firstLevelWithSymbol, hcon]
        exact hne (hinj g hg g0 hg0 hc hc0 (h.trans hfirst0.symm))
      have hshift : ∀ g ∈ goals, g ∉ checked → ¬ (g = g0) →
          firstLevelWithSymbol g (lvl :: rest) =
            (firstLevelWithSymbol g rest).map (· + 1) := by
        intro g hg hc hne
        simp [firstLevelWithSymbol, hother g hg hc hne]
      have hnmem : ∀ g : σ, g ∉ checked ++ [g0] ↔ g ∉ checked ∧ ¬ (g = g0) := by
        intro g
        simp only [List.mem_append, List.mem_singleton]
        tauto
      have hall2 : ∀ g ∈ goals, g ∉ checked ++ [g0] →
          (firstLevelWithSymbol g rest).isSome = true := by
        intro g hg hc2
        rw [hnmem] at hc2
        have h1 := hall g hg hc2.1
        rw [hshift g hg hc2.1 hc2.2] at h1
        simpa using h1
      have hinj2 : ∀ g1 ∈ goals, ∀ g2 ∈ goals, g1 ∉ checked ++ [g0] → g2 ∉ checked ++ [g0] →
          firstLevelWithSymbol g1 rest = firstLevelWithSymbol g2 rest → g1 = g2 := by
        intro g1 hg1 g2 hg2 hc1 hc2 he
        rw [hnmem] at hc1 hc2
        apply hinj g1 hg1 g2 hg2 hc1.1 hc2.1
        rw [hshift g1 hg1 hc1.1 hc1.2, hshift g2 hg2 hc2.1 hc2.2, he]
      have hstep : h_levelsum_aux goals (lvl :: rest) checked idx acc =
          h_levelsum_aux goals rest (checked ++ [g0]) (idx + 1) (acc + (idx : Int)) := by
        simp only [h_levelsum_aux, hf]
      rw [hstep, ih (checked ++ [g0]) (idx + 1) (acc + (idx : Int)) hall2 hinj2]
      -- rewrite the filtered goal list over the extended checked list
      have hfl : goals.filter (fun g => !decide (g ∈ checked ++ [g0])) =
          (goals.filter (fun g => !decide (g ∈ checked))).filter
            (fun g => !decide (g = g0)) := by
        rw [List.filter_filter]
        apply List.filter_congr
        intro g hg
        by_cases h1 : g ∈ checked <;> by_cases h2 : g = g0 <;> simp [h1, h2]
      have hg0fil : g0 ∈ goals.filter (fun g => !decide (g ∈ checked)) :=
        List.mem_filter.mpr ⟨hg0, by simp [hc0]⟩
      have hext := sum_extract g0
        (fun g => (idx : Int) + ((firstLevelWithSymbol g (lvl :: rest)).getD 0 : Int))
        (goals.filter (fun g => !decide (g ∈ checked))) (hnd.filter _) hg0fil
      rw [hext, hfl]
      have hmapeq : ((goals.filter (fun g => !decide (g ∈ checked))).filter
            (fun g => !decide (g = g0))).map
            (fun g => (idx : Int) + ((firstLevelWithSymbol g (lvl :: rest)).getD 0 : Int)) =
          ((goals.filter (fun g => !decide (g ∈ checked))).filter
            (fun g => !decide (g = g0))).map
            (fun g => ((idx + 1 : Nat) : Int) +
              ((firstLevelWithSymbol g rest).getD 0 : Int)) := by
        apply List.map_congr_left
        intro g hgm
        have hg1 := List.mem_filter.mp hgm
        have hg2 := List.mem_filter.mp hg1.1
        have hgg : g ∈ goals := hg2.1
        have hgc : g ∉ checked := by
          have := hg2.2
          rwa [Bool.not_eq_true', decide_eq_false_iff_not] at this
        have hgn : ¬ (g = g0) := by
          have := hg1.2
          rwa [Bool.not_eq_true', decide_eq_false_iff_not] at this
        have hsome := hall g hgg hgc
        rw [hshift g hgg hgc hgn] at hsome ⊢
        obtain ⟨k, hk⟩ := Option.isSome_iff_exists.mp (by simpa using hsome)
        rw [hk]
        simp only [Option.map_some', Option.getD_some]
        push_cast
        omega
      rw [hmapeq]
      simp only [hfirst0, Option.getD_some, Nat.cast_zero, add_zero]
      push_cast
      omega
    | none =>
      have hnone := findGoalAtLevel_none_spec goals checked lvl hf
      have hother : ∀ g ∈ goals, g ∉ checked →
          lvl.any (fun n => decide (n.symbol = g)) = false := by
        intro g hg hc
        by_contra hcon
        rw [Bool.not_eq_false] at hcon
        rcases List.any_eq_true.mp hcon with ⟨n, hn, hs⟩
        rw [decide_eq_true_eq] at hs
        exact hnone n hn g hg ⟨hs, hc⟩
      have hshift : ∀ g ∈ goals, g ∉ checked →
          firstLevelWithSymbol g (lvl :: rest) =
            (firstLevelWithSymbol g rest).map (· + 1) := by
        intro g hg hc
        simp [firstLevelWithSymbol, hother g hg hc]
      have hall2 : ∀ g ∈ goals, g ∉ checked →
          (firstLevelWithSymbol g rest).isSome = true := by
        intro g hg hc
        have h1 := hall g hg hc
        rw [hshift g hg hc] at h1
        simpa using h1
      have hinj2 : ∀ g1 ∈ goals, ∀ g2 ∈ goals, g1 ∉ checked → g2 ∉ checked →
          firstLevelWithSymbol g1 rest = firstLevelWithSymbol g2 rest → g1 = g2 := by
        intro g1 hg1 g2 hg2 hc1 hc2 he
        apply hinj g1 hg1 g2 hg2 hc1 hc2
        rw [hshift g1 hg1 hc1, hshift g2 hg2 hc2, he]
      have hstep : h_levelsum_aux goals (lvl :: rest) checked idx acc =
          h_levelsum_aux goals rest checked (idx + 1) acc := by
        simp only [h_levelsum_aux, hf]
      rw [hstep, ih checked (idx + 1) acc hall2 hinj2]
      have hmapeq : (goals.filter (fun g => !decide (g ∈ checked))).map
            (fun g => (idx : Int) + ((firstLevelWithSymbol g (lvl :: rest)).getD 0 : Int)) =
          (goals.filter (fun g => !decide (g ∈ checked))).map
            (fun g => ((idx + 1 : Nat) : Int) +
              ((firstLevelWithSymbol g rest).getD 0 : Int)) := by
        apply List.map_congr_left
        intro g hgm
        have hg2 := List.mem_filter.mp hgm
        have hgg : g ∈ goals := hg2.1
        have hgc : g ∉ checked := by
          have := hg2.2
          rwa [Bool.not_eq_true', decide_eq_false_iff_not] at this
        have hsome := hall g hgg hgc
        rw [hshift g hgg hgc] at hsome ⊢
        obtain ⟨k, hk⟩ := Option.isSome_iff_exists.mp (by simpa using hsome)
        rw [hk]
        simp only [Option.map_some', Option.getD_some]
        push_cast
        omega
      rw [hmapeq]

/-! ### Claim theorems: level-sum heuristic (C1, C5) -/

/-- Counterexample to claim C1 as stated: with the two goals 0 and 1
both first appearing at level 0, `h_levelsum` counts only one of them at
level 0 (the per-level break) and the other at level 1, returning 1,
while the claimed sum of first-appearance level indices is 0. -/
theorem h_levelsum_claim_counterexample :
    h_levelsum ([[⟨0, true⟩, ⟨1, true⟩], [⟨0, true⟩, ⟨1, true⟩]] :
        List (List (PgNode_s Nat))) [0, 1] = 1 ∧
    claimed_levelsum ([[⟨0, true⟩, ⟨1, true⟩], [⟨0, true⟩, ⟨1, true⟩]] :
        List (List (PgNode_s Nat))) [0, 1] = 0 := by
  constructor
  · decide
  · decide

/-- Claim C1 (amended): `h_levelsum` counts at most one goal per level,
so the claimed sum of first-appearance indices is returned exactly when
the goals are pairwise distinct, each goal's symbol appears in some
literal level, and no two goals first appear at the same level. -/
theorem h_levelsum_eq_claimed (lvls : List (List (PgNode_s σ))) (goals : List σ)
    (hnd : goals.Nodup)
    (hall : ∀ g ∈ goals, (firstLevelWithSymbol g lvls).isSome = true)
    (hinj : ∀ g1 ∈ goals, ∀ g2 ∈ goals,
      firstLevelWithSymbol g1 lvls = firstLevelWithSymbol g2 lvls → g1 = g2) :
    h_levelsum lvls goals = claimed_levelsum lvls goals := by
  unfold h_levelsum claimed_levelsum
  rw [h_levelsum_aux_eq goals hnd lvls [] 0 0 (fun g hg _ => hall g hg)
    (fun g1 h1 g2 h2 _ _ he => hinj g1 h1 g2 h2 he)]
  rw [hnd.dedup]
  have hfil : goals.filter (fun g => !decide (g ∈ ([] : List σ))) = goals := by
    apply List.filter_eq_self.mpr
    intro a _
    simp
  rw [hfil]
  simp

/-- Witness for the amended C1: goal 0 first appears at level 0 and goal
1 at level 1, and the heuristic returns 0 + 1. -/
theorem h_levelsum_eq_claimed_witness :
    h_levelsum ([[⟨0, true⟩], [⟨0, true⟩, ⟨1, true⟩]] : List (List (PgNode_s Nat))) [0, 1] =
      claimed_levelsum ([[⟨0, true⟩], [⟨0, true⟩, ⟨1, true⟩]] :
        List (List (PgNode_s Nat))) [0, 1] :=
  h_levelsum_eq_claimed [[⟨0, true⟩], [⟨0, true⟩, ⟨1, true⟩]] [0, 1]
    (by decide) (by decide) (by decide)

theorem h_levelsum_aux_nonneg (goals : List σ) :
    ∀ (lvls : List (List (PgNode_s σ))) (checked : List σ) (idx : Nat) (acc : Int),
      0 ≤ acc → 0 ≤ h_levelsum_aux goals lvls checked idx acc := by
  intro lvls
  induction lvls with
  | nil => intro checked idx acc h; simpa [h_levelsum_aux] using h
  | cons lvl rest ih =>
    intro checked idx acc h
    cases hf : findGoalAtLevel goals checked lvl with
    | some g =>
      have hstep : h_levelsum_aux goals (lvl :: rest) checked idx acc =
          h_levelsum_aux goals rest (checked ++ [g]) (idx + 1) (acc + (idx : Int)) := by
        simp only [h_levelsum_aux, hf]
      rw [hstep]
      exact ih _ _ _ (add_nonneg h (Int.natCast_nonneg idx))
    | none =>
      have hstep : h_levelsum_aux goals (lvl :: rest) checked idx acc =
          h_levelsum_aux goals rest checked (idx + 1) acc := by
        simp only [h_levelsum_aux, hf]
      rw [hstep]
      exact ih _ _ _ h

/-- Counterexample to claim C5 as stated: both goals 5 and 7 have their
symbol present at literal level 0, yet `h_levelsum` returns 1, so not
every goal present at level 0 contributed 0 to the sum (goal 7 is
counted at level 1 because of the per-level break). -/
theorem h_levelsum_level0_counterexample :
    (∀ g ∈ ([5, 7] : List Nat),
      ∃ n ∈ ([⟨5, true⟩, ⟨7, true⟩] : List (PgNode_s Nat)), n.symbol = g) ∧
    h_levelsum ([[⟨5, true⟩, ⟨7, true⟩], [⟨5, true⟩, ⟨7, true⟩]] :
        List (List (PgNode_s Nat))) [5, 7] = 1 := by
  constructor
  · decide
  · decide

/-- Claim C5 (amended): `h_levelsum` is always non-negative, and a
single goal whose symbol is present at level 0 yields 0; with several
goals, only one goal can be counted per level, so another goal present
at level 0 may contribute a positive index. -/
theorem h_levelsum_nonneg_and_level0 :
    (∀ (lvls : List (List (PgNode_s σ))) (goals : List σ), 0 ≤ h_levelsum lvls goals) ∧
    (∀ (lvl0 : List (PgNode_s σ)) (rest : List (List (PgNode_s σ))) (g : σ),
      (∃ n ∈ lvl0, n.symbol = g) → h_levelsum (lvl0 :: rest) [g] = 0) := by
  constructor
  · intro lvls goals
    exact h_levelsum_aux_nonneg goals lvls [] 0 0 le_rfl
  · intro lvl0 rest g hex
    have hany : lvl0.any (fun n => decide (n.symbol = g)) = true := by
      rw [List.any_eq_true]
      rcases hex with ⟨n, hn, hs⟩
      exact ⟨n, hn, by simp [hs]⟩
    have hfirst : firstLevelWithSymbol g (lvl0 :: rest) = some 0 := by
      simp [firstLevelWithSymbol, hany]
    unfold h_levelsum
    rw [h_levelsum_aux_eq [g] (by simp) (lvl0 :: rest) [] 0 0 ?hall ?hinj]
    case hall =>
      intro g2 hg2 h2
      rw [List.mem_singleton] at hg2
      subst hg2
      rw [hfirst]
      rfl
    case hinj =>
      intro g1 hg1 g2 hg2 h1 h2 he
      rw [List.mem_singleton] at hg1 hg2
      rw [hg1, hg2]
    simp [hfirst]

/-- Witness for the amended C5 at a concrete single-goal graph. -/
theorem h_levelsum_nonneg_and_level0_witness :
    0 ≤ h_levelsum ([[⟨3, true⟩]] : List (List (PgNode_s Nat))) [3] ∧
    h_levelsum ([[⟨3, true⟩]] : List (List (PgNode_s Nat))) [3] = 0 :=
  ⟨h_levelsum_nonneg_and_level0.1 [[⟨3, true⟩]] [3],
   h_levelsum_nonneg_and_level0.2 [⟨3, true⟩] [] 3 ⟨⟨3, true⟩, by decide, rfl⟩⟩

end AirCargo
